import Mathlib

/-!
Verification of the cell resampling engine (cres).

Shallow embedding of the Rust sources:
  * `src/cell.rs`: cell growth (`Cell::new`) and weight redistribution
    (`Cell::resample`, single-weight and multiweight builds),
  * `src/naive_neighbour_search.rs`: the naive nearest-neighbour backend,
  * `src/cres.rs`: the orchestrator `Cres::run`,
  * `src/writer.rs` and `src/bin/main.rs`: event writing,
  * `src/stripper_xml/reader.rs`: channel scale factors.

Machine floats (`f64` / `N64`) are modelled by `ℚ`, so floating-point
rounding is abstracted away; panics (`unwrap`, `zip_eq` mismatch) are
modelled by `Option`/`Except`.
-/

namespace Cres

/-! ### cell.rs -/

/-- Structure `Cell` from `src/cell.rs`: the member indices (seed first),
the radius and the running sum of central weights. The borrowed event
slice is passed separately as a weight assignment `Nat → ℚ`. -/
structure Cell where
  members : List Nat
  radius : ℚ
  weight_sum : ℚ
deriving DecidableEq, Repr

/-- Growth loop of `Cell::new` (src/cell.rs lines 43-54): for each
`(next_idx, dist)` yielded by the neighbour iterator, add the weight,
push the member, set the radius, and stop once `weight_sum >= 0`. -/
def cellLoop (w : Nat → ℚ) : ℚ → List Nat → ℚ → List (Nat × ℚ) → ℚ × List Nat × ℚ
  | ws, members, radius, [] => (ws, members, radius)
  | ws, members, _radius, (idx, dist) :: rest =>
    let ws2 := ws + w idx
    if 0 ≤ ws2 then (ws2, members ++ [idx], dist)
    else cellLoop w ws2 (members ++ [idx]) dist rest

/-- Function `Cell::new` (src/cell.rs lines 23-61): start from the seed
(whose weight is required to be negative) and consume the neighbour
iterator, given here as the list of `(index, distance)` pairs it yields. -/
def cellNew (w : Nat → ℚ) (seedIdx : Nat) (neighbours : List (Nat × ℚ)) : Cell :=
  let r := cellLoop w (w seedIdx) [seedIdx] 0 neighbours
  ⟨r.2.1, r.2.2, r.1⟩

/-- Method `Cell::nmembers` (src/cell.rs lines 110-112). -/
def Cell.nmembers (c : Cell) : Nat := c.members.length

/-- Single-weight `Cell::resample` (src/cell.rs lines 101-107): overwrite
the central weight of every member with `weight_sum / nmembers`.
Returns the updated weight assignment of the event pool. -/
def resample (w : Nat → ℚ) (c : Cell) : Nat → ℚ :=
  fun i => if i ∈ c.members then c.weight_sum / (c.nmembers : ℚ) else w i

/-- Helper `add_assign` from the multiweight `Cell::resample`
(src/cell.rs lines 74-79): componentwise addition via `itertools::zip_eq`,
which panics (here: `none`) when the two weight vectors differ in length. -/
def add_assign (acc rhs : List ℚ) : Option (List ℚ) :=
  if acc.length = rhs.length then some (List.zipWith (· + ·) acc rhs) else none

/-- Multiweight `Cell::resample` (src/cell.rs lines 70-99): sort the member
indices ascending, sum the weight vectors of all members starting from the
first, scale by `1 / nmembers`, and overwrite every member's weight vector
with the result. The pool of weight vectors is `W : Nat → List ℚ`; the sort
`sort_unstable` on `usize` is rendered by `List.insertionSort (· ≤ ·)`,
which produces the same ascending order. -/
def resampleMulti (W : Nat → List ℚ) (members : List Nat) : Option (Nat → List ℚ) :=
  match List.insertionSort (· ≤ ·) members with
  | [] => none
  | first :: rest =>
    match rest.foldlM (fun acc i => add_assign acc (W i)) (W first) with
    | none => none
    | some sums =>
      let inv_norm : ℚ := 1 / (members.length : ℚ)
      let avg_wts := sums.map (fun wt => wt * inv_norm)
      some (fun i => if i ∈ members then avg_wts else W i)

/-! ### naive_neighbour_search.rs -/

/-- Method `Vec::swap_remove(i)`: overwrite position `i` with the last
element and pop. Used in `NaiveNeighbourIter::new` and `next`. -/
def swapRemove {α : Type} (l : List α) (i : Nat) : List α :=
  match l.getLast? with
  | none => []
  | some a => (l.set i a).dropLast

/-- Selection step of `NaiveNeighbourIter::next` (src/naive_neighbour_search.rs
lines 60-64): `candidates.par_iter().enumerate().min_by_key(dist)`. Returns
the position and value of the first minimum of `key` over the candidate
list; on ties the earlier position wins, matching the reduction order of
`min_by_key`. -/
def selectMin (key : Nat → ℚ) : List Nat → Option (Nat × Nat)
  | [] => none
  | x :: xs =>
    match selectMin key xs with
    | none => some (0, x)
    | some (j, y) => if key y < key x then some (j + 1, y) else some (0, x)

/-- Repeatedly apply `NaiveNeighbourIter::next` (src/naive_neighbour_search.rs
lines 57-72): yield the argmin of the remaining candidates, swap-remove it,
and stop when no candidate remains. Each step removes exactly one candidate,
so `fuel` bounds the number of iterations; it is instantiated with the
initial candidate count. -/
def naiveRunFuel (key : Nat → ℚ) : Nat → List Nat → List (Nat × ℚ)
  | 0, _ => []
  | fuel + 1, candidates =>
    match selectMin key candidates with
    | none => []
    | some (pos, idx) => (idx, key idx) :: naiveRunFuel key fuel (swapRemove candidates pos)

/-- Full enumeration of the naive neighbour iterator. -/
def naiveRun (key : Nat → ℚ) (candidates : List Nat) : List (Nat × ℚ) :=
  naiveRunFuel key candidates.length candidates

/-- Function `nearest_in` of the naive backend combined with
`NaiveNeighbourIter::new` (src/naive_neighbour_search.rs lines 17-27 and
46-55): recompute `dist[i] = d(i, seed)` for all `i < n`, initialise the
candidates to `0..n` with the seed swap-removed, then enumerate. -/
def nearestIn (n seed : Nat) (d : Nat → Nat → ℚ) : List (Nat × ℚ) :=
  naiveRun (fun i => d i seed) (swapRemove (List.range n) seed)

/-! ### cres.rs -/

/-- Internal event as far as the orchestrator claims need it: the
(mutable) id and the central weight. -/
structure Ev where
  id : Nat
  weight : ℚ
deriving DecidableEq, Repr

/-- Id-assignment loop of `Cres::run` (src/cres.rs lines 192-198): walk
the converted events in order; return `IdErr(ev.id)` at the first event
with non-zero id, otherwise assign the running index as id. -/
def assignIds : List Ev → Nat → Except Nat (List Ev)
  | [], _ => Except.ok []
  | e :: es, k =>
    if e.id ≠ 0 then Except.error e.id
    else
      match assignIds es (k + 1) with
      | Except.error m => Except.error m
      | Except.ok rest => Except.ok ({ e with id := k } :: rest)

/-- Function `Cres::run` (src/cres.rs lines 157-227) after successful
reading and conversion: the id check and assignment, followed by
resampling, unweighting, sorting and writing, which are abstracted as
functions since they live behind trait objects (resampler, unweighter)
or are missing from the sources (the `Ord` instance of `Event`). -/
def cresRun (events : List Ev) (resampler unweighter sortEv : List Ev → List Ev)
    (writeOut : List Ev → List Ev) : Except Nat (List Ev) :=
  match assignIds events 0 with
  | Except.error k => Except.error k
  | Except.ok evs => Except.ok (writeOut (sortEv (unweighter (resampler evs))))

/-! ### writer.rs and bin/main.rs -/

/-- Lockstep walk of `FileWriter::write_all` (src/writer.rs lines 66-96).
Input records are their weight lists; `pos` is the running index of the
next unread record (the persistent `enumerate` counter). For each output
event: pull one record; if its index is below the event id, keep pulling
until the running index equals the event id; overwrite the first weight
of the record in hand with the event weight; emit `(running index, record)`.
`none` models the `unwrap` panics on reader exhaustion or empty weights. -/
def writeWalk (recs : List (List ℚ)) (pos : Nat) : List Ev → Option (List (Nat × List ℚ))
  | [] => some []
  | e :: es =>
    match recs with
    | [] => none
    | r :: rs =>
      if pos < e.id then
        if e.id - pos ≤ rs.length then
          match (rs.take (e.id - pos)).getLast? with
          | none => none
          | some used =>
            match used with
            | [] => none
            | _w :: tl =>
              match writeWalk (rs.drop (e.id - pos)) (e.id + 1) es with
              | none => none
              | some out => some ((pos + (e.id - pos), e.weight :: tl) :: out)
        else none
      else
        match r with
        | [] => none
        | _w :: tl =>
          match writeWalk rs (pos + 1) es with
          | none => none
          | some out => some ((pos, e.weight :: tl) :: out)

/-- Weight update of `FileWriter::write_all` (src/writer.rs lines 80-82):
`read_event.weights.first_mut().unwrap().weight = Some(event.weight)` —
only the first weight of the raw record is overwritten. -/
def fileWriterSetWeight (ws : List ℚ) (resampled : ℚ) : Option (List ℚ) :=
  match ws with
  | [] => none
  | _w :: rest => some (resampled :: rest)

/-- Weight update of the standalone binary (src/bin/main.rs lines 180-184):
`reweight = event.weight / old_weight` with `old_weight` the first weight,
then every weight of the record is multiplied by `reweight`. -/
def mainBinReweight (ws : List ℚ) (resampled : ℚ) : Option (List ℚ) :=
  match ws with
  | [] => none
  | w :: rest => some ((w :: rest).map (fun x => x * (resampled / w)))

/-- Function `main` (src/bin/main.rs lines 34-38): `run_main` errors are
printed to stderr as a single line prefixed by `ERROR:`, and `main`
returns `()` in both cases, so the process exit status is `0` throughout.
Result: `(exit status, stderr lines)`. -/
def mainProcess (result : Except String Unit) : Nat × List String :=
  match result with
  | Except.ok _ => (0, [])
  | Except.error msg => (0, ["ERROR: " ++ msg])

/-! ### stripper_xml/reader.rs -/

/-- STRIPPER XML reader state (src/stripper_xml/reader.rs): the
`Eventrecord` name, the channel scale factor fixed at construction, the
subevent weights stored in the file, and those not yet yielded. XML
parsing is abstracted to the list of subevent weights it produces. -/
structure FileReaderM where
  name : String
  scale : ℚ
  fileWeights : List ℚ
  remaining : List ℚ
deriving DecidableEq, Repr

/-- Constructor `Reader::with_scaling` (src/stripper_xml/reader.rs lines
135-161) wrapped by `FileReader::new`: the scale factor is the scaling-map
entry for the record's `name` attribute, defaulting to `1.` when absent. -/
def fileReaderNew (name : String) (scaling : String → Option ℚ)
    (fileWeights : List ℚ) : FileReaderM :=
  { name := name
    scale := (scaling name).getD 1
    fileWeights := fileWeights
    remaining := fileWeights }

/-- Iterator step `Reader::next` (src/stripper_xml/reader.rs lines 179-262):
each subevent is yielded with `ev.weight *= self.scale()`. -/
def fileReaderNext (r : FileReaderM) : Option (ℚ × FileReaderM) :=
  match r.remaining with
  | [] => none
  | w :: rest => some (w * r.scale, { r with remaining := rest })

/-- Weights yielded by repeatedly calling `Reader::next` with a fixed
scale until exhaustion. -/
def runAux (scale : ℚ) : List ℚ → List ℚ
  | [] => []
  | w :: rest => (w * scale) :: runAux scale rest

/-- All weights yielded by driving the reader to exhaustion. -/
def fileReaderRun (r : FileReaderM) : List ℚ :=
  runAux r.scale r.remaining

/-- Method `FileReader::rewind` (src/stripper_xml/reader.rs lines 48-62):
rewind the source and rebuild the reader via `Reader::new_scaled(input,
self.reader.scale())`, reusing the scale factor of the first pass. -/
def fileReaderRewind (r : FileReaderM) : FileReaderM :=
  { r with remaining := r.fileWeights }

/-! ### Lemmas and claim theorems -/

/-- Complete characterisation of the growth loop: some prefix of length
`k` of the candidate stream is admitted; the final weight sum, member
list and radius are determined by that prefix; every intermediate weight
sum was negative; and the loop stops either because the sum became
non-negative or because the candidates ran out. -/
lemma cellLoop_spec (w : Nat → ℚ) (nb : List (Nat × ℚ)) :
    ∀ (ws : ℚ) (members : List Nat) (radius : ℚ),
    ∃ k, k ≤ nb.length ∧
      cellLoop w ws members radius nb =
        (ws + ((nb.take k).map (fun p => w p.1)).sum,
         members ++ (nb.take k).map Prod.fst,
         ((nb.take k).map Prod.snd).getLastD radius) ∧
      (∀ j, 0 < j → j < k → ws + ((nb.take j).map (fun p => w p.1)).sum < 0) ∧
      (0 ≤ ws + ((nb.take k).map (fun p => w p.1)).sum ∨ k = nb.length) := by
  induction nb with
  | nil =>
    intro ws members radius
    exact ⟨0, by simp [cellLoop]⟩
  | cons hd rest ih =>
    obtain ⟨idx, dist⟩ := hd
    intro ws members radius
    by_cases h : 0 ≤ ws + w idx
    · refine ⟨1, by simp, ?_, ?_, Or.inl ?_⟩
      · simp [cellLoop, h]
      · intro j hj hj1; omega
      · simpa using h
    · obtain ⟨k, hk, heq, hmin, hterm⟩ := ih (ws + w idx) (members ++ [idx]) dist
      refine ⟨k + 1, by simpa using hk, ?_, ?_, ?_⟩
      · rw [show cellLoop w ws members radius ((idx, dist) :: rest)
              = cellLoop w (ws + w idx) (members ++ [idx]) dist rest by
            simp [cellLoop, h]]
        rw [heq]
        simp only [List.take_succ_cons, List.map_cons, List.sum_cons,
          List.getLastD_cons, Prod.mk.injEq, List.append_assoc,
          List.singleton_append]
        exact ⟨by ring, trivial⟩
      · intro j hj0 hjk
        match j, hj0 with
        | 1, _ =>
          simpa using lt_of_not_le h
        | (j' + 2), _ =>
          have := hmin (j' + 1) (Nat.succ_pos j') (by omega)
          simpa [List.take_succ_cons, add_assoc] using this
      · rcases hterm with hpos | hall
        · left; simpa [List.take_succ_cons, add_assoc] using hpos
        · right; simp [hall]

/-- The weight sum recorded in a cell built by `Cell::new` is the sum of
the central weights of its members, and the member list is non-empty. -/
lemma cellNew_weight_sum_eq (w : Nat → ℚ) (s : Nat) (nb : List (Nat × ℚ)) :
    (cellNew w s nb).weight_sum = ((cellNew w s nb).members.map w).sum ∧
    (cellNew w s nb).members ≠ [] := by
  obtain ⟨k, -, heq, -, -⟩ := cellLoop_spec w nb (w s) [s] 0
  constructor
  · simp only [cellNew, heq]
    simp only [List.singleton_append, List.map_cons, List.sum_cons,
      List.map_map]
    rfl
  · simp only [cellNew, heq]
    simp

/-- Resampling a cell whose recorded weight sum is the sum of its members'
central weights (with multiplicity) preserves that sum exactly. -/
lemma resample_sum (w : Nat → ℚ) (c : Cell)
    (hws : c.weight_sum = (c.members.map w).sum) (hne : c.members ≠ []) :
    (c.members.map (resample w c)).sum = (c.members.map w).sum := by
  have hlen : ((c.members.length : ℚ)) ≠ 0 := by
    exact_mod_cast fun h0 => hne (List.length_eq_zero.mp h0)
  have hmap : c.members.map (resample w c)
      = c.members.map (fun _ => c.weight_sum / (c.nmembers : ℚ)) :=
    List.map_congr_left (fun i hi => by simp [resample, hi])
  rw [hmap, List.map_const', List.sum_replicate, nsmul_eq_mul, Cell.nmembers,
    ← mul_div_assoc, mul_div_cancel_left₀ _ hlen, hws]

/-- Claim C1: for every cell built by `Cell::new`, the single-weight
`resample` sets the central weight of every member to `weight_sum`
divided by the number of members, and the sum of central weights over the
members afterwards equals the pre-resampling sum (exactly, in the
rational-number model of floating point). -/
theorem cell_resample_single_weight (w : Nat → ℚ) (s : Nat) (nb : List (Nat × ℚ))
    (_hs : w s < 0) :
    (∀ i ∈ (cellNew w s nb).members,
        resample w (cellNew w s nb) i
          = (cellNew w s nb).weight_sum / ((cellNew w s nb).nmembers : ℚ)) ∧
    ((cellNew w s nb).members.map (resample w (cellNew w s nb))).sum
      = ((cellNew w s nb).members.map w).sum := by
  obtain ⟨hws, hne⟩ := cellNew_weight_sum_eq w s nb
  exact ⟨fun i hi => by simp [resample, hi], resample_sum w _ hws hne⟩

/-- Witness for C1 at a concrete input: seed weight `-1`, one neighbour
of weight `1` at distance `1`. -/
theorem cell_resample_single_weight_witness :
    ((fun i => if i = 0 then (-1 : ℚ) else 1) 0 < 0) ∧
    ((∀ i ∈ (cellNew (fun i => if i = 0 then (-1 : ℚ) else 1) 0 [(1, 1)]).members,
        resample (fun i => if i = 0 then (-1 : ℚ) else 1)
            (cellNew (fun i => if i = 0 then (-1 : ℚ) else 1) 0 [(1, 1)]) i
          = (cellNew (fun i => if i = 0 then (-1 : ℚ) else 1) 0 [(1, 1)]).weight_sum
            / ((cellNew (fun i => if i = 0 then (-1 : ℚ) else 1) 0 [(1, 1)]).nmembers : ℚ)) ∧
     ((cellNew (fun i => if i = 0 then (-1 : ℚ) else 1) 0 [(1, 1)]).members.map
          (resample (fun i => if i = 0 then (-1 : ℚ) else 1)
            (cellNew (fun i => if i = 0 then (-1 : ℚ) else 1) 0 [(1, 1)]))).sum
       = ((cellNew (fun i => if i = 0 then (-1 : ℚ) else 1) 0 [(1, 1)]).members.map
          (fun i => if i = 0 then (-1 : ℚ) else 1)).sum) :=
  ⟨by decide, cell_resample_single_weight (fun i => if i = 0 then (-1 : ℚ) else 1) 0
    [(1, 1)] (by decide)⟩

/-- Counterexample to claim C2 as stated: `Cell::new` consults no distance
cap. With seed weight `-1` and a single candidate of weight `2` at
distance `10`, the candidate is admitted and the radius becomes `10`,
although `10` exceeds, say, a configured `max_cell_size` of `1`; under the
claim the cell would have terminated without admitting it. -/
theorem cell_new_ignores_cell_size_cap :
    (cellNew (fun i => if i = 0 then (-1 : ℚ) else 2) 0 [(1, 10)]).members = [0, 1] ∧
    (cellNew (fun i => if i = 0 then (-1 : ℚ) else 2) 0 [(1, 10)]).radius = 10 ∧
    ¬ ((10 : ℚ) ≤ 1) := by norm_num [cellNew, cellLoop]

/-- Claim C2, amended: the growth loop of `Cell::new` applies no distance
cap at all — whatever the first candidate's distance, it is admitted, so
the member list always starts with the seed followed by the first yielded
candidate. -/
theorem cell_new_admits_any_distance (w : Nat → ℚ) (s idx : Nat) (d : ℚ)
    (rest : List (Nat × ℚ)) :
    ((cellNew w s ((idx, d) :: rest)).members.take 2) = [s, idx] := by
  by_cases h : 0 ≤ w s + w idx
  · simp [cellNew, cellLoop, h]
  · obtain ⟨k, -, heq, -, -⟩ := cellLoop_spec w rest (w s + w idx) ([s] ++ [idx]) d
    simp only [cellNew]
    rw [show cellLoop w (w s) [s] 0 ((idx, d) :: rest)
          = cellLoop w (w s + w idx) ([s] ++ [idx]) d rest by simp [cellLoop, h]]
    rw [heq]
    simp

/-- Claim C3: when `Cell::new` returns for a seed with negative central
weight, some prefix of `k` candidates was admitted; the member list is
the seed followed by those candidates, the radius is the distance of the
last admitted one (`0` if none), the weight sum is the seed weight plus
their weights, and either the weight sum is non-negative with every
smaller member count (along the growth order) still negative, or the
candidate stream was exhausted. The third alternative of the claim — a
distance cap — never fires, as no cap exists in this code. -/
theorem cell_new_termination_invariant (w : Nat → ℚ) (s : Nat)
    (nb : List (Nat × ℚ)) (hs : w s < 0) :
    ∃ k ≤ nb.length,
      (cellNew w s nb).members = s :: (nb.take k).map Prod.fst ∧
      (cellNew w s nb).radius = ((nb.take k).map Prod.snd).getLastD 0 ∧
      (cellNew w s nb).weight_sum = w s + ((nb.take k).map (fun p => w p.1)).sum ∧
      ((0 ≤ (cellNew w s nb).weight_sum ∧
          ∀ j < k, w s + ((nb.take j).map (fun p => w p.1)).sum < 0) ∨
        k = nb.length) := by
  obtain ⟨k, hk, heq, hmin, hterm⟩ := cellLoop_spec w nb (w s) [s] 0
  refine ⟨k, hk, by simp [cellNew, heq], by simp [cellNew, heq],
    by simp [cellNew, heq], ?_⟩
  rcases hterm with hpos | hall
  · left
    refine ⟨by simp only [cellNew, heq]; exact hpos, ?_⟩
    intro j hj
    rcases Nat.eq_zero_or_pos j with rfl | hj0
    · simpa using hs
    · exact hmin j hj0 hj
  · right; exact hall

/-- Witness for C3 at a concrete input: seed weight `-1`, one neighbour
of weight `1` at distance `5`. -/
theorem cell_new_termination_invariant_witness :
    ((fun i => if i = 0 then (-1 : ℚ) else 1) 0 < 0) ∧
    (∃ k ≤ ([((1 : Nat), (5 : ℚ))]).length,
      (cellNew (fun i => if i = 0 then (-1 : ℚ) else 1) 0 [(1, 5)]).members
        = 0 :: (([((1 : Nat), (5 : ℚ))]).take k).map Prod.fst ∧
      (cellNew (fun i => if i = 0 then (-1 : ℚ) else 1) 0 [(1, 5)]).radius
        = ((([((1 : Nat), (5 : ℚ))]).take k).map Prod.snd).getLastD 0 ∧
      (cellNew (fun i => if i = 0 then (-1 : ℚ) else 1) 0 [(1, 5)]).weight_sum
        = (fun i => if i = 0 then (-1 : ℚ) else 1) 0
          + ((([((1 : Nat), (5 : ℚ))]).take k).map
              (fun p => (fun i => if i = 0 then (-1 : ℚ) else 1) p.1)).sum ∧
      ((0 ≤ (cellNew (fun i => if i = 0 then (-1 : ℚ) else 1) 0 [(1, 5)]).weight_sum ∧
          ∀ j < k, (fun i => if i = 0 then (-1 : ℚ) else 1) 0
            + ((([((1 : Nat), (5 : ℚ))]).take j).map
                (fun p => (fun i => if i = 0 then (-1 : ℚ) else 1) p.1)).sum < 0) ∨
        k = ([((1 : Nat), (5 : ℚ))]).length)) :=
  ⟨by decide, cell_new_termination_invariant
    (fun i => if i = 0 then (-1 : ℚ) else 1) 0 [(1, 5)] (by decide)⟩

/-- Length of `swap_remove` on a non-empty vector. -/
lemma swapRemove_length {α : Type} (l : List α) (i : Nat) (h : l ≠ []) :
    (swapRemove l i).length = l.length - 1 := by
  obtain ⟨a, ha⟩ := Option.isSome_iff_exists.mp (List.getLast?_isSome.mpr h)
  simp [swapRemove, ha]

/-- Removing the head via `swap_remove 0` permutes the tail. -/
lemma swapRemove_cons_zero_perm {α : Type} (x : α) (xs : List α) :
    List.Perm xs (swapRemove (x :: xs) 0) := by
  cases xs with
  | nil => simp [swapRemove]
  | cons b bs =>
    obtain ⟨a, ha⟩ : ∃ a, (b :: bs).getLast? = some a :=
      Option.isSome_iff_exists.mp (List.getLast?_isSome.mpr (by simp))
    have hdrop : (b :: bs).dropLast ++ [a] = b :: bs :=
      List.dropLast_append_getLast? a (by simp [ha])
    have hsw : swapRemove (x :: b :: bs) 0 = a :: (b :: bs).dropLast := by
      simp [swapRemove, List.getLast?_cons_cons, ha, List.dropLast_cons₂]
    have hp := List.perm_append_singleton a (b :: bs).dropLast
    rw [hdrop] at hp
    rw [hsw]
    exact hp

/-- Pushing `swap_remove` past the head of a vector with non-empty tail. -/
lemma swapRemove_cons_succ {α : Type} (x : α) (xs : List α) (j : Nat) (h : xs ≠ []) :
    swapRemove (x :: xs) (j + 1) = x :: swapRemove xs j := by
  cases xs with
  | nil => exact absurd rfl h
  | cons b bs =>
    obtain ⟨a, ha⟩ : ∃ a, (b :: bs).getLast? = some a :=
      Option.isSome_iff_exists.mp (List.getLast?_isSome.mpr (by simp))
    have hset : (x :: b :: bs).set (j + 1) a = x :: (b :: bs).set j a := rfl
    cases j with
    | zero =>
      simp [swapRemove, List.getLast?_cons_cons, ha, hset, List.set,
        List.dropLast_cons₂]
    | succ j =>
      simp only [swapRemove, List.getLast?_cons_cons, ha, hset]
      show (x :: b :: bs.set j a).dropLast = x :: (b :: bs.set j a).dropLast
      exact List.dropLast_cons₂

/-- `swap_remove` at a valid position removes exactly the element there. -/
lemma swapRemove_perm {α : Type} :
    ∀ (l : List α) (i : Nat) (h : i < l.length),
      List.Perm l (l.get ⟨i, h⟩ :: swapRemove l i) := by
  intro l
  induction l with
  | nil => intro i h; simp at h
  | cons x xs ih =>
    intro i h
    cases i with
    | zero => exact List.Perm.cons x (swapRemove_cons_zero_perm x xs)
    | succ j =>
      have hj : j < xs.length := by simpa using h
      have hne : xs ≠ [] := by
        intro h0; rw [h0] at hj; simp at hj
      rw [swapRemove_cons_succ x xs j hne]
      have hx : List.Perm (x :: xs) (x :: (xs.get ⟨j, hj⟩ :: swapRemove xs j)) :=
        List.Perm.cons x (ih j hj)
      exact hx.trans (List.Perm.swap (xs.get ⟨j, hj⟩) x (swapRemove xs j))

/-- A `none` result of the argmin means the candidate list was empty. -/
lemma selectMin_eq_none {key : Nat → ℚ} {l : List Nat}
    (h : selectMin key l = none) : l = [] := by
  cases l with
  | nil => rfl
  | cons x xs =>
    simp only [selectMin] at h
    cases hxs : selectMin key xs with
    | none => rw [hxs] at h; exact absurd h (by simp)
    | some p =>
      obtain ⟨j, y⟩ := p
      rw [hxs] at h
      by_cases hlt : key y < key x <;> simp [hlt] at h

/-- The argmin returns a valid position holding the returned candidate. -/
lemma selectMin_get {key : Nat → ℚ} :
    ∀ {l : List Nat} {pos idx : Nat}, selectMin key l = some (pos, idx) →
      ∃ h : pos < l.length, l.get ⟨pos, h⟩ = idx := by
  intro l
  induction l with
  | nil => intro pos idx h; simp [selectMin] at h
  | cons x xs ih =>
    intro pos idx h
    simp only [selectMin] at h
    cases hxs : selectMin key xs with
    | none =>
      rw [hxs] at h
      obtain ⟨rfl, rfl⟩ : 0 = pos ∧ x = idx := by simpa using h
      exact ⟨by simp, rfl⟩
    | some p =>
      obtain ⟨j, y⟩ := p
      rw [hxs] at h
      by_cases hlt : key y < key x
      · obtain ⟨rfl, rfl⟩ : j + 1 = pos ∧ y = idx := by simpa [hlt] using h
        obtain ⟨hj, hget⟩ := ih hxs
        exact ⟨by simpa using hj, by simpa using hget⟩
      · obtain ⟨rfl, rfl⟩ : 0 = pos ∧ x = idx := by simpa [hlt] using h
        exact ⟨by simp, rfl⟩

/-- The candidate returned by the argmin minimises the key over the list. -/
lemma selectMin_min {key : Nat → ℚ} :
    ∀ {l : List Nat} {pos idx : Nat}, selectMin key l = some (pos, idx) →
      ∀ x ∈ l, key idx ≤ key x := by
  intro l
  induction l with
  | nil => intro pos idx h; simp [selectMin] at h
  | cons x xs ih =>
    intro pos idx h z hz
    simp only [selectMin] at h
    cases hxs : selectMin key xs with
    | none =>
      rw [hxs] at h
      obtain ⟨-, hxi⟩ : 0 = pos ∧ x = idx := by simpa using h
      rw [selectMin_eq_none hxs] at hz
      obtain rfl : z = x := by simpa using hz
      rw [← hxi]
    | some p =>
      obtain ⟨j, y⟩ := p
      rw [hxs] at h
      by_cases hlt : key y < key x
      · obtain ⟨-, rfl⟩ : j + 1 = pos ∧ y = idx := by simpa [hlt] using h
        rcases List.mem_cons.mp hz with rfl | hz
        · exact le_of_lt hlt
        · exact ih hxs z hz
      · obtain ⟨-, rfl⟩ : 0 = pos ∧ x = idx := by simpa [hlt] using h
        rcases List.mem_cons.mp hz with rfl | hz
        · exact le_refl _
        · exact le_trans (not_lt.mp hlt) (ih hxs z hz)

/-- One iterator step removes exactly the yielded candidate. -/
lemma selectMin_perm {key : Nat → ℚ} {l : List Nat} {pos idx : Nat}
    (h : selectMin key l = some (pos, idx)) :
    List.Perm l (idx :: swapRemove l pos) := by
  obtain ⟨hpos, hget⟩ := selectMin_get h
  have hp := swapRemove_perm l pos hpos
  rw [hget] at hp
  exact hp

/-- The ids yielded by the naive iterator permute the candidate list. -/
lemma naiveRunFuel_perm (key : Nat → ℚ) :
    ∀ (fuel : Nat) (l : List Nat), l.length ≤ fuel →
      List.Perm ((naiveRunFuel key fuel l).map Prod.fst) l := by
  intro fuel
  induction fuel with
  | zero =>
    intro l hl
    obtain rfl : l = [] := List.length_eq_zero.mp (Nat.le_zero.mp hl)
    simp [naiveRunFuel]
  | succ fuel ih =>
    intro l hl
    cases hsel : selectMin key l with
    | none =>
      obtain rfl : l = [] := selectMin_eq_none hsel
      simp [naiveRunFuel, selectMin]
    | some p =>
      obtain ⟨pos, idx⟩ := p
      have hperm := selectMin_perm hsel
      have hlen : (swapRemove l pos).length ≤ fuel := by
        have := hperm.length_eq
        simp only [List.length_cons] at this
        omega
      simp only [naiveRunFuel, hsel, List.map_cons]
      exact (List.Perm.cons idx (ih _ hlen)).trans hperm.symm

/-- Every yielded pair carries the key value of its id. -/
lemma naiveRunFuel_snd (key : Nat → ℚ) :
    ∀ (fuel : Nat) (l : List Nat) (p : Nat × ℚ),
      p ∈ naiveRunFuel key fuel l → p.2 = key p.1 := by
  intro fuel
  induction fuel with
  | zero => intro l p hp; simp [naiveRunFuel] at hp
  | succ fuel ih =>
    intro l p hp
    cases hsel : selectMin key l with
    | none => rw [naiveRunFuel, hsel] at hp; simp at hp
    | some q =>
      obtain ⟨pos, idx⟩ := q
      rw [naiveRunFuel, hsel] at hp
      rcases List.mem_cons.mp hp with rfl | hp
      · rfl
      · exact ih _ p hp

/-- The naive iterator yields in non-decreasing key order. -/
lemma naiveRunFuel_sorted (key : Nat → ℚ) :
    ∀ (fuel : Nat) (l : List Nat), l.length ≤ fuel →
      List.Pairwise (fun a b : Nat × ℚ => a.2 ≤ b.2) (naiveRunFuel key fuel l) := by
  intro fuel
  induction fuel with
  | zero =>
    intro l hl
    obtain rfl : l = [] := List.length_eq_zero.mp (Nat.le_zero.mp hl)
    simp [naiveRunFuel]
  | succ fuel ih =>
    intro l hl
    cases hsel : selectMin key l with
    | none => rw [naiveRunFuel, hsel]; simp
    | some p =>
      obtain ⟨pos, idx⟩ := p
      have hperm := selectMin_perm hsel
      have hlen : (swapRemove l pos).length ≤ fuel := by
        have := hperm.length_eq
        simp only [List.length_cons] at this
        omega
      rw [naiveRunFuel, hsel]
      refine List.Pairwise.cons ?_ (ih _ hlen)
      intro b hb
      have hb1 : b.1 ∈ swapRemove l pos :=
        (naiveRunFuel_perm key fuel _ hlen).mem_iff.mp (List.mem_map_of_mem Prod.fst hb)
      have hbl : b.1 ∈ l := hperm.mem_iff.mpr (List.mem_cons_of_mem idx hb1)
      have := selectMin_min hsel b.1 hbl
      rw [naiveRunFuel_snd key fuel _ b hb]
      exact this

/-- Counterexample to claim C4 as stated: ties are not broken by lower
point id. With three identical points and seed `0`, the candidate array
after swap-removing the seed is `[2, 1]`, so the iterator yields point
`2` before point `1` although both are at distance `0`. -/
theorem naive_tie_break_not_by_id :
    nearestIn 3 0 (fun _ _ => (0 : ℚ)) = [(2, 0), (1, 0)] ∧
    ¬ List.Pairwise (fun a b : Nat × ℚ => a.2 < b.2 ∨ (a.2 = b.2 ∧ a.1 < b.1))
        (nearestIn 3 0 (fun _ _ => (0 : ℚ))) := by
  constructor
  · rfl
  · intro hp
    rw [show nearestIn 3 0 (fun _ _ => (0 : ℚ)) = [(2, 0), (1, 0)] from rfl] at hp
    have h01 : ((2 : Nat), (0 : ℚ)).2 < ((1 : Nat), (0 : ℚ)).2 ∨
        ((2 : Nat), (0 : ℚ)).2 = ((1 : Nat), (0 : ℚ)).2 ∧
          ((2 : Nat), (0 : ℚ)).1 < ((1 : Nat), (0 : ℚ)).1 :=
      List.rel_of_pairwise_cons hp (by simp)
    rcases h01 with h | h
    · exact absurd h (by norm_num)
    · exact absurd h.2 (by norm_num)

/-- Claim C4, amended: for a seed among `n` points, the naive backend's
`nearest_in` iterator yields each point other than the seed exactly once
as `(point_id, distance)` pairs in non-decreasing distance from the seed,
and halts after all `n - 1` other points have been returned; ties are
broken by the position in the internal scratch array (the point with the
highest id occupies the removed seed's slot), not necessarily by lower id. -/
theorem naive_nearest_in_enumeration (n seed : Nat) (d : Nat → Nat → ℚ)
    (h : seed < n) :
    List.Perm ((nearestIn n seed d).map Prod.fst) ((List.range n).erase seed) ∧
    List.Pairwise (fun a b : Nat × ℚ => a.2 ≤ b.2) (nearestIn n seed d) ∧
    (∀ p ∈ nearestIn n seed d, p.2 = d p.1 seed) ∧
    (nearestIn n seed d).length = n - 1 := by
  have hlt : seed < (List.range n).length := by
    rw [List.length_range]; exact h
  have hne : List.range n ≠ [] := by
    intro h0
    rw [h0] at hlt; simp at hlt
  have hswlen : (swapRemove (List.range n) seed).length = n - 1 := by
    rw [swapRemove_length _ _ hne, List.length_range]
  have hperm0 : List.Perm (List.range n)
      (seed :: swapRemove (List.range n) seed) := by
    have hp := swapRemove_perm (List.range n) seed hlt
    have hget : (List.range n).get ⟨seed, hlt⟩ = seed := by simp
    rw [hget] at hp
    exact hp
  have hperm1 : List.Perm (swapRemove (List.range n) seed)
      ((List.range n).erase seed) := by
    have h2 : List.Perm (List.range n) (seed :: (List.range n).erase seed) :=
      List.perm_cons_erase (by simpa using h)
    exact (hperm0.symm.trans h2).cons_inv
  have hrun : nearestIn n seed d
      = naiveRunFuel (fun i => d i seed) (swapRemove (List.range n) seed).length
          (swapRemove (List.range n) seed) := rfl
  refine ⟨?_, ?_, ?_, ?_⟩
  · rw [hrun]
    exact (naiveRunFuel_perm _ _ _ le_rfl).trans hperm1
  · rw [hrun]
    exact naiveRunFuel_sorted _ _ _ le_rfl
  · rw [hrun]
    intro p hp
    exact naiveRunFuel_snd _ _ _ p hp
  · rw [hrun, ← hswlen]
    exact ((naiveRunFuel_perm _ _ _ le_rfl).length_eq.symm.trans
      (List.length_map _ _)).symm

/-- Witness for the amended C4 at a concrete input: `n = 3`, seed `0`,
all distances `0`. -/
theorem naive_nearest_in_enumeration_witness :
    (0 < 3) ∧
    (List.Perm ((nearestIn 3 0 (fun _ _ => (0 : ℚ))).map Prod.fst)
        ((List.range 3).erase 0) ∧
     List.Pairwise (fun a b : Nat × ℚ => a.2 ≤ b.2)
        (nearestIn 3 0 (fun _ _ => (0 : ℚ))) ∧
     (∀ p ∈ nearestIn 3 0 (fun _ _ => (0 : ℚ)), p.2 = (0 : ℚ)) ∧
     (nearestIn 3 0 (fun _ _ => (0 : ℚ))).length = 3 - 1) :=
  ⟨by decide, naive_nearest_in_enumeration 3 0 (fun _ _ => (0 : ℚ)) (by decide)⟩

/-- Head of a componentwise sum of equally long weight vectors. -/
lemma zipWith_add_headD (a b : List ℚ) (h : a.length = b.length) :
    (List.zipWith (· + ·) a b).headD 0 = a.headD 0 + b.headD 0 := by
  cases a with
  | nil =>
    cases b with
    | nil => simp
    | cons y ys => simp at h
  | cons x xs =>
    cases b with
    | nil => simp at h
    | cons y ys => simp

/-- The `add_assign` fold of the multiweight `resample` succeeds on
equally long weight vectors and accumulates the componentwise sum; in
particular its head is the sum of the heads. -/
lemma foldlM_add_assign (W : Nat → List ℚ) :
    ∀ (is : List Nat) (acc : List ℚ),
      (∀ i ∈ is, (W i).length = acc.length) →
      ∃ sums, is.foldlM (fun acc i => add_assign acc (W i)) acc = some sums ∧
        sums.length = acc.length ∧
        sums.headD 0 = acc.headD 0 + (is.map (fun i => (W i).headD 0)).sum := by
  intro is
  induction is with
  | nil =>
    intro acc _
    exact ⟨acc, rfl, rfl, by simp⟩
  | cons i is ih =>
    intro acc hlen
    have hi : (W i).length = acc.length := hlen i (by simp)
    have hstep : add_assign acc (W i)
        = some (List.zipWith (· + ·) acc (W i)) := by
      simp [add_assign, hi]
    have hlen2 : (List.zipWith (· + ·) acc (W i)).length = acc.length := by
      simp [hi]
    obtain ⟨sums, hfold, hslen, hhead⟩ :=
      ih (List.zipWith (· + ·) acc (W i))
        (fun j hj => by rw [hlen2]; exact hlen j (List.mem_cons_of_mem i hj))
    refine ⟨sums, ?_, by rw [hslen, hlen2], ?_⟩
    · show add_assign acc (W i) >>= (fun b => is.foldlM (fun acc i => add_assign acc (W i)) b)
        = some sums
      rw [hstep]
      exact hfold
    · rw [hhead, zipWith_add_headD acc (W i) hi.symm]
      simp [add_assoc]

/-- Every member of a cell built by `Cell::new` is the seed or the first
component of one of the candidate pairs. -/
lemma cellNew_members_cases (w : Nat → ℚ) (s : Nat) (nb : List (Nat × ℚ)) :
    ∀ i ∈ (cellNew w s nb).members, i = s ∨ ∃ p ∈ nb, p.1 = i := by
  obtain ⟨k, -, heq, -, -⟩ := cellLoop_spec w nb (w s) [s] 0
  intro i hi
  simp only [cellNew, heq, List.singleton_append, List.mem_cons] at hi
  rcases hi with rfl | hi
  · exact Or.inl rfl
  · obtain ⟨p, hp, hpi⟩ := List.mem_map.mp hi
    exact Or.inr ⟨p, List.take_subset k nb hp, hpi⟩

/-- Claim C5: on a cell built by `Cell::new` whose member events all carry
weight vectors of one common positive length with the central weight at
index 0, the multiweight `Cell::resample` succeeds and assigns every
member the central weight `weight_sum / nmembers` — exactly the value the
single-weight `Cell::resample` writes, so the two code paths agree on the
central weight. -/
theorem multiweight_resample_central_agrees (W : Nat → List ℚ) (s : Nat)
    (nb : List (Nat × ℚ)) (L : Nat) (hL : 0 < L)
    (hs : (W s).length = L) (hnb : ∀ p ∈ nb, (W p.1).length = L)
    (hneg : (W s).headD 0 < 0) :
    ∃ W2,
      resampleMulti W (cellNew (fun i => (W i).headD 0) s nb).members = some W2 ∧
      ∀ i ∈ (cellNew (fun i => (W i).headD 0) s nb).members,
        (W2 i).headD 0
          = resample (fun j => (W j).headD 0)
              (cellNew (fun i => (W i).headD 0) s nb) i := by
  obtain ⟨hws, hne⟩ := cellNew_weight_sum_eq (fun i => (W i).headD 0) s nb
  have hmlen : ∀ i ∈ (cellNew (fun i => (W i).headD 0) s nb).members,
      (W i).length = L := by
    intro i hi
    rcases cellNew_members_cases (fun i => (W i).headD 0) s nb i hi with rfl | ⟨p, hp, rfl⟩
    · exact hs
    · exact hnb p hp
  have hsortperm := List.perm_insertionSort (fun a b => a ≤ b)
    (cellNew (fun i => (W i).headD 0) s nb).members
  cases hsorted : List.insertionSort (fun a b => a ≤ b)
      (cellNew (fun i => (W i).headD 0) s nb).members with
  | nil =>
    rw [hsorted] at hsortperm
    exact absurd hsortperm.nil_eq.symm hne
  | cons first rest =>
    rw [hsorted] at hsortperm
    have hsortmem : ∀ i ∈ first :: rest,
        i ∈ (cellNew (fun i => (W i).headD 0) s nb).members :=
      fun i hi => hsortperm.mem_iff.mp hi
    have hfl : (W first).length = L := hmlen first (hsortmem first (by simp))
    obtain ⟨sums, hfold, hslen, hhead⟩ := foldlM_add_assign W rest (W first)
      (fun j hj => by
        rw [hfl]
        exact hmlen j (hsortmem j (List.mem_cons_of_mem first hj)))
    have hsum : sums.headD 0
        = ((cellNew (fun i => (W i).headD 0) s nb).members.map
            (fun i => (W i).headD 0)).sum := by
      rw [hhead]
      have hmap := (hsortperm.map (fun i => (W i).headD 0)).sum_eq
      simp only [List.map_cons, List.sum_cons] at hmap
      exact hmap
    have hsums_ne : sums ≠ [] := by
      intro h0
      rw [h0, hfl] at hslen
      simp at hslen
      omega
    refine ⟨fun i => if i ∈ (cellNew (fun i => (W i).headD 0) s nb).members
        then sums.map (fun wt =>
          wt * (1 / ((cellNew (fun i => (W i).headD 0) s nb).members.length : ℚ)))
        else W i, ?_, ?_⟩
    · simp only [resampleMulti, hsorted, hfold]
    · intro i hi
      have havg : ((sums.map
          (fun wt => wt * (1 / ((cellNew (fun i => (W i).headD 0) s nb).members.length : ℚ)))).headD 0)
          = sums.headD 0 * (1 / ((cellNew (fun i => (W i).headD 0) s nb).members.length : ℚ)) := by
        cases sums with
        | nil => exact absurd rfl hsums_ne
        | cons u us => simp
      simp only [if_pos hi]
      rw [havg, hsum, ← hws]
      rw [show resample (fun j => (W j).headD 0) (cellNew (fun i => (W i).headD 0) s nb) i
            = (cellNew (fun i => (W i).headD 0) s nb).weight_sum
              / ((cellNew (fun i => (W i).headD 0) s nb).members.length : ℚ) by
          simp only [resample, Cell.nmembers]
          rw [if_pos hi]]
      rw [mul_one_div]

/-- Witness for C5 at a concrete input: seed weight vector `[-1, 5]`,
one neighbour with weight vector `[3, 7]` at distance `2`. -/
theorem multiweight_resample_central_agrees_witness :
    ((0 : Nat) < 2 ∧
     ((fun i => if i = 0 then [(-1 : ℚ), 5] else [3, 7]) 0).length = 2 ∧
     (∀ p ∈ [((1 : Nat), (2 : ℚ))],
        ((fun i => if i = 0 then [(-1 : ℚ), 5] else [3, 7]) p.1).length = 2) ∧
     (((fun i => if i = 0 then [(-1 : ℚ), 5] else [3, 7]) 0).headD 0 < 0)) ∧
    (∃ W2,
      resampleMulti (fun i => if i = 0 then [(-1 : ℚ), 5] else [3, 7])
          (cellNew
            (fun i => (((fun i => if i = 0 then [(-1 : ℚ), 5] else [3, 7]) i).headD 0))
            0 [(1, 2)]).members = some W2 ∧
      ∀ i ∈ (cellNew
            (fun i => (((fun i => if i = 0 then [(-1 : ℚ), 5] else [3, 7]) i).headD 0))
            0 [(1, 2)]).members,
        (W2 i).headD 0
          = resample
              (fun j => (((fun i => if i = 0 then [(-1 : ℚ), 5] else [3, 7]) j).headD 0))
              (cellNew
                (fun i => (((fun i => if i = 0 then [(-1 : ℚ), 5] else [3, 7]) i).headD 0))
                0 [(1, 2)]) i) :=
  ⟨⟨by decide, by decide, by decide, by decide⟩,
    multiweight_resample_central_agrees
      (fun i => if i = 0 then [(-1 : ℚ), 5] else [3, 7]) 0 [(1, 2)] 2
      (by decide) (by decide) (by decide) (by decide)⟩

/-- The id loop of `Cres::run` errors with the id of the first event
carrying a non-zero pre-assigned id. -/
lemma assignIds_error :
    ∀ (events : List Ev) (k : Nat) (e : Ev),
      events.find? (fun e => e.id != 0) = some e →
      assignIds events k = Except.error e.id := by
  intro events
  induction events with
  | nil => intro k e h; simp [List.find?] at h
  | cons x xs ih =>
    intro k e hf
    rw [List.find?_cons] at hf
    cases hxid : (x.id != 0) with
    | true =>
      rw [hxid] at hf
      obtain rfl : x = e := by simpa using hf
      have hx : x.id ≠ 0 := by simpa using hxid
      simp [assignIds, hx]
    | false =>
      rw [hxid] at hf
      have hx : x.id = 0 := by simpa using hxid
      simp only [assignIds, hx]
      rw [ih (k + 1) e hf]
      simp

/-- The id loop of `Cres::run` succeeds when all pre-assigned ids are
zero, assigning consecutive ids from `k` and leaving weights untouched. -/
lemma assignIds_ok :
    ∀ (events : List Ev) (k : Nat),
      events.find? (fun e => e.id != 0) = none →
      ∃ evs, assignIds events k = Except.ok evs ∧
        evs.map Ev.id = List.range' k events.length ∧
        evs.map Ev.weight = events.map Ev.weight := by
  intro events
  induction events with
  | nil => intro k _; exact ⟨[], rfl, by simp, by simp⟩
  | cons x xs ih =>
    intro k hf
    rw [List.find?_cons] at hf
    cases hxid : (x.id != 0) with
    | true => rw [hxid] at hf; simp at hf
    | false =>
      rw [hxid] at hf
      have hx : x.id = 0 := by simpa using hxid
      obtain ⟨evs, hok, hids, hwts⟩ := ih (k + 1) hf
      refine ⟨{ x with id := k } :: evs, ?_, ?_, ?_⟩
      · simp [assignIds, hx, hok]
      · simp only [List.map_cons, hids, List.length_cons]
        exact (List.range'_succ k xs.length 1).symm
      · simp [hwts]

/-- Counterexample to claim C6 as stated: with two converter outputs of
pre-assigned ids `1` and `2`, `Cres::run` returns `IdErr(1)` (the first
offender), so the claimed equivalence fails at `k = 2`: an output with
non-zero id `2` exists, yet the error is not `IdErr(2)`. -/
theorem cres_run_id_err_not_iff :
    ¬ (∀ k : Nat,
        cresRun [⟨1, 0⟩, ⟨2, 0⟩] id id id id = Except.error k ↔
          ∃ e ∈ [Ev.mk 1 0, Ev.mk 2 0], e.id = k ∧ e.id ≠ 0) := by
  intro h
  have h2 : cresRun [⟨1, 0⟩, ⟨2, 0⟩] id id id id = Except.error 2 :=
    (h 2).mpr ⟨Ev.mk 2 0, by simp, rfl, by simp⟩
  have h1 : cresRun [⟨1, 0⟩, ⟨2, 0⟩] id id id id = Except.error 1 := rfl
  rw [h1] at h2
  simp at h2

/-- Claim C6, amended: `Cres::run` assigns ids `0, 1, 2, ...` in input
order, and it returns `IdErr(k)` exactly when some converter output has a
non-zero pre-assigned id, `k` being the id of the first such output; the
check runs after conversion and before resampling, unweighting, sorting
and writing, whose behaviour (universally quantified here) cannot affect
it. -/
theorem cres_run_id_check (events : List Ev)
    (resampler unweighter sortEv writeOut : List Ev → List Ev) :
    (match events.find? (fun e => e.id != 0) with
      | some e =>
          cresRun events resampler unweighter sortEv writeOut = Except.error e.id
      | none => ∃ evs, assignIds events 0 = Except.ok evs ∧
          evs.map Ev.id = List.range events.length ∧
          evs.map Ev.weight = events.map Ev.weight ∧
          cresRun events resampler unweighter sortEv writeOut
            = Except.ok (writeOut (sortEv (unweighter (resampler evs))))) := by
  cases hf : events.find? (fun e => e.id != 0) with
  | some e =>
    simp only [cresRun, assignIds_error events 0 e hf]
  | none =>
    obtain ⟨evs, hok, hids, hwts⟩ := assignIds_ok events 0 hf
    refine ⟨evs, hok, ?_, hwts, ?_⟩
    · rw [hids, List.range_eq_range']
    · simp only [cresRun, hok]

/-- Full characterisation of the lockstep walk of `FileWriter::write_all`
when the output events carry strictly increasing ids no smaller than the
current stream position: the record handed to the writer for each event
is the one whose running index equals the event's id, with its first
weight overwritten by the event's weight. -/
lemma writeWalk_spec :
    ∀ (events : List Ev) (recs : List (List ℚ)) (pos : Nat)
      (out : List (Nat × List ℚ)),
      List.Pairwise (fun a b : Ev => a.id < b.id) events →
      (∀ e ∈ events, pos ≤ e.id) →
      writeWalk recs pos events = some out →
      out.length = events.length ∧
      ∀ j < events.length,
        out.getD j (0, [])
          = ((events.getD j (Ev.mk 0 0)).id,
             (events.getD j (Ev.mk 0 0)).weight
               :: (recs.getD ((events.getD j (Ev.mk 0 0)).id - pos) []).tail) := by
  intro events
  induction events with
  | nil =>
    intro recs pos out _ _ h
    obtain rfl : out = [] := by
      have h2 : some ([] : List (Nat × List ℚ)) = some out := h
      simpa using h2
    exact ⟨rfl, fun j hj => absurd hj (by simp)⟩
  | cons e es ih =>
    intro recs pos out hsort hpos h
    obtain ⟨hhead, htail⟩ := List.pairwise_cons.mp hsort
    cases recs with
    | nil => simp [writeWalk] at h
    | cons r rs =>
      simp only [writeWalk] at h
      by_cases hlt : pos < e.id
      · rw [if_pos hlt] at h
        by_cases hskip : e.id - pos ≤ rs.length
        case neg =>
          rw [if_neg hskip] at h
          exact absurd h (by simp)
        rw [if_pos hskip] at h
        have hskip1 : 1 ≤ e.id - pos := by omega
        have htake_len : (rs.take (e.id - pos)).length = e.id - pos := by
          simp only [List.length_take]
          omega
        have h2 : e.id - pos - 1 < rs.length := by omega
        have hgl : (rs.take (e.id - pos)).getLast?
            = some (rs.getD (e.id - pos - 1) []) := by
          rw [List.getLast?_eq_getElem? _, htake_len, List.getElem?_take,
            if_pos (by omega : e.id - pos - 1 < e.id - pos)]
          simp [List.getD_eq_getElem?_getD, List.getElem?_eq_getElem h2]
        rw [hgl] at h
        cases hused : rs.getD (e.id - pos - 1) [] with
        | nil => rw [hused] at h; exact absurd h (by simp)
        | cons uw utl =>
          rw [hused] at h
          cases hrec : writeWalk (rs.drop (e.id - pos)) (e.id + 1) es with
          | none => rw [hrec] at h; exact absurd h (by simp)
          | some out2 =>
            rw [hrec] at h
            obtain rfl : out = (pos + (e.id - pos), e.weight :: utl) :: out2 := by
              have h3 := h.symm
              simpa using h3
            obtain ⟨hlen2, hspec2⟩ := ih (rs.drop (e.id - pos)) (e.id + 1) out2
              htail (fun x hx => by have := hhead x hx; omega) hrec
            refine ⟨by simp [hlen2], ?_⟩
            intro j hj
            cases j with
            | zero =>
              simp only [List.getD_cons_zero, Prod.mk.injEq]
              refine ⟨by omega, ?_⟩
              obtain ⟨m, hm⟩ : ∃ m, e.id - pos = m + 1 :=
                ⟨e.id - pos - 1, by omega⟩
              have hme : m = e.id - pos - 1 := by omega
              rw [hm, List.getD_cons_succ, hme, hused, List.tail_cons]
            | succ j =>
              have hj2 : j < es.length := by simpa using hj
              simp only [List.getD_cons_succ]
              rw [hspec2 j hj2]
              simp only [Prod.mk.injEq]
              refine ⟨trivial, ?_⟩
              have hmem : es.getD j (Ev.mk 0 0) ∈ es := by
                rw [List.getD_eq_getElem es (Ev.mk 0 0) hj2]
                exact List.getElem_mem hj2
              have hx : e.id < (es.getD j (Ev.mk 0 0)).id := hhead _ hmem
              have hdrop : (rs.drop (e.id - pos)).getD
                  ((es.getD j (Ev.mk 0 0)).id - (e.id + 1)) []
                  = rs.getD ((es.getD j (Ev.mk 0 0)).id - pos - 1) [] := by
                rw [List.getD_eq_getElem?_getD, List.getElem?_drop,
                  ← List.getD_eq_getElem?_getD]
                congr 1
                omega
              have hcons : (r :: rs).getD ((es.getD j (Ev.mk 0 0)).id - pos) []
                  = rs.getD ((es.getD j (Ev.mk 0 0)).id - pos - 1) [] := by
                obtain ⟨m, hm⟩ : ∃ m, (es.getD j (Ev.mk 0 0)).id - pos = m + 1 :=
                  ⟨(es.getD j (Ev.mk 0 0)).id - pos - 1, by omega⟩
                rw [hm, List.getD_cons_succ]
                norm_num
              rw [hdrop, hcons]
      · rw [if_neg hlt] at h
        have hpe : pos = e.id := by
          have := hpos e (by simp)
          omega
        cases r with
        | nil => exact absurd h (by simp)
        | cons rw0 rtl =>
          cases hrec : writeWalk rs (pos + 1) es with
          | none => rw [hrec] at h; exact absurd h (by simp)
          | some out2 =>
            rw [hrec] at h
            obtain rfl : out = (pos, e.weight :: rtl) :: out2 := by
              have h3 := h.symm
              simpa using h3
            obtain ⟨hlen2, hspec2⟩ := ih rs (pos + 1) out2 htail
              (fun x hx => by have := hhead x hx; omega) hrec
            refine ⟨by simp [hlen2], ?_⟩
            intro j hj
            cases j with
            | zero =>
              simp only [List.getD_cons_zero, Prod.mk.injEq]
              refine ⟨hpe, ?_⟩
              rw [show e.id - pos = 0 by omega, List.getD_cons_zero,
                List.tail_cons]
            | succ j =>
              have hj2 : j < es.length := by simpa using hj
              simp only [List.getD_cons_succ]
              rw [hspec2 j hj2]
              simp only [Prod.mk.injEq]
              refine ⟨trivial, ?_⟩
              have hmem : es.getD j (Ev.mk 0 0) ∈ es := by
                rw [List.getD_eq_getElem es (Ev.mk 0 0) hj2]
                exact List.getElem_mem hj2
              have hx : e.id < (es.getD j (Ev.mk 0 0)).id := hhead _ hmem
              have hcons : ((rw0 :: rtl) :: rs).getD
                    ((es.getD j (Ev.mk 0 0)).id - pos) []
                  = rs.getD ((es.getD j (Ev.mk 0 0)).id - (pos + 1)) [] := by
                obtain ⟨m, hm⟩ : ∃ m, (es.getD j (Ev.mk 0 0)).id - pos = m + 1 :=
                  ⟨(es.getD j (Ev.mk 0 0)).id - (pos + 1), by omega⟩
                rw [hm, List.getD_cons_succ]
                congr 1
                omega
              rw [hcons]

/-- Counterexample to claim C7 as stated: when the output events do not
arrive in ascending id order, the walk cannot rewind. With three input
records and output events of ids `1` then `0`, the event with id `0` is
handed the record at running index `2`, not the record at index `0`. -/
theorem writer_misaligns_unsorted_ids :
    writeWalk [[1], [1], [1]] 0 [Ev.mk 1 5, Ev.mk 0 7]
      = some [(1, [5]), (2, [7])] ∧ (2 : Nat) ≠ (Ev.mk 0 7).id := by
  exact ⟨by decide, by decide⟩

/-- Claim C7, amended: provided the output events carry strictly
increasing ids (as the orchestrator's sorted stream does only when the
final ordering is by id), every record modified and handed to the format
writer by `FileWriter::write_all` is the one whose running index in the
rewound reader stream equals that event's id, with its first weight
replaced by the event's weight; records between consecutive targets are
consumed and discarded. -/
theorem file_writer_lockstep (recs : List (List ℚ)) (events : List Ev)
    (out : List (Nat × List ℚ))
    (hsort : List.Pairwise (fun a b : Ev => a.id < b.id) events)
    (h : writeWalk recs 0 events = some out) :
    out.length = events.length ∧
    ∀ j < events.length,
      out.getD j (0, [])
        = ((events.getD j (Ev.mk 0 0)).id,
           (events.getD j (Ev.mk 0 0)).weight
             :: (recs.getD (events.getD j (Ev.mk 0 0)).id []).tail) := by
  have hs := writeWalk_spec events recs 0 out hsort (fun e _ => Nat.zero_le _) h
  simpa using hs

/-- Witness for the amended C7 at a concrete input: three one-weight
records, output events with ids `0` and `2`. -/
theorem file_writer_lockstep_witness :
    (List.Pairwise (fun a b : Ev => a.id < b.id) [Ev.mk 0 5, Ev.mk 2 7] ∧
     writeWalk [[1], [2], [3]] 0 [Ev.mk 0 5, Ev.mk 2 7]
       = some [(0, [5]), (2, [7])]) ∧
    (([(0, [5]), (2, [7])] : List (Nat × List ℚ)).length
        = ([Ev.mk 0 5, Ev.mk 2 7] : List Ev).length ∧
     ∀ j < ([Ev.mk 0 5, Ev.mk 2 7] : List Ev).length,
       ([((0 : Nat), [(5 : ℚ)]), (2, [7])]).getD j (0, [])
         = ((([Ev.mk 0 5, Ev.mk 2 7]).getD j (Ev.mk 0 0)).id,
            (([Ev.mk 0 5, Ev.mk 2 7]).getD j (Ev.mk 0 0)).weight
              :: (([[1], [2], [3]] : List (List ℚ)).getD
                    (([Ev.mk 0 5, Ev.mk 2 7]).getD j (Ev.mk 0 0)).id []).tail)) :=
  ⟨⟨by decide, by decide⟩,
    file_writer_lockstep [[1], [2], [3]] [Ev.mk 0 5, Ev.mk 2 7]
      [(0, [5]), (2, [7])] (by decide) (by decide)⟩

/-- Counterexample to claim C8 as stated: `FileWriter::write_all` leaves
the other weights unchanged instead of scaling them. On a record with
weights `[2, 3]` and resampled weight `1`, it produces `[1, 3]`, while
the claim demands the second weight be scaled by `1 / 2`. -/
theorem file_writer_does_not_scale_other_weights :
    fileWriterSetWeight [2, 3] 1 = some [1, 3] ∧
    ([1, 3] : List ℚ) ≠ 1 :: ([3] : List ℚ).map (fun x => x * ((1 : ℚ) / 2)) := by
  constructor
  · rfl
  · norm_num

/-- Claim C8, amended: `FileWriter::write_all` overwrites only the
record's central (first) weight with the resampled weight, leaving every
other weight unchanged; the standalone binary's writer loop instead
multiplies every weight by `resampled / central`, which (for a non-zero
central weight) sets the central weight to the resampled weight and
scales every other weight by that ratio. -/
theorem write_weight_paths (w r : ℚ) (rest : List ℚ) (hw : w ≠ 0) :
    fileWriterSetWeight (w :: rest) r = some (r :: rest) ∧
    mainBinReweight (w :: rest) r
      = some (r :: rest.map (fun x => x * (r / w))) := by
  refine ⟨rfl, ?_⟩
  simp only [mainBinReweight, List.map_cons]
  have hwr : w * (r / w) = r := by
    rw [mul_comm]
    exact div_mul_cancel₀ r hw
  rw [hwr]

/-- Witness for the amended C8 at a concrete input: record weights
`[2, 3]`, resampled weight `1`. -/
theorem write_weight_paths_witness :
    ((2 : ℚ) ≠ 0) ∧
    (fileWriterSetWeight [(2 : ℚ), 3] 1 = some [1, 3] ∧
     mainBinReweight [(2 : ℚ), 3] 1
       = some (1 :: ([3] : List ℚ).map (fun x => x * ((1 : ℚ) / 2)))) :=
  ⟨by decide, write_weight_paths 2 1 [3] (by decide)⟩

/-- Claim C9 evaluated on the code: `main` prints exactly one
`ERROR:`-prefixed line when `run_main` fails, but it returns `()` in both
cases, so the process exit status is `0` even on failure — contradicting
the claimed non-zero exit status. -/
theorem main_error_exit_status_zero :
    mainProcess (Except.ok ()) = (0, []) ∧
    (mainProcess (Except.error "some failure")).1 = 0 ∧
    (mainProcess (Except.error "some failure")).2
      = ["ERROR: " ++ "some failure"] :=
  ⟨rfl, rfl, rfl⟩

/-- Driving the reader by `runAux` with a fixed scale is a map. -/
lemma runAux_eq_map (scale : ℚ) :
    ∀ l : List ℚ, runAux scale l = l.map (fun w => w * scale) := by
  intro l
  induction l with
  | nil => rfl
  | cons w rest ih => simp [runAux, ih]

/-- Unfolding `fileReaderRun` one `Reader::next` step at a time. -/
lemma fileReaderRun_eq_next (r : FileReaderM) :
    fileReaderRun r
      = (match fileReaderNext r with
          | none => []
          | some (w, r2) => w :: fileReaderRun r2) := by
  cases hr : r.remaining with
  | nil => simp [fileReaderRun, fileReaderNext, hr, runAux]
  | cons w rest => simp [fileReaderRun, fileReaderNext, hr, runAux]

/-- Claim C10: every event yielded by the STRIPPER XML reader has its
weight multiplied by the channel scale factor fixed at construction —
the scaling-map entry for the `Eventrecord` name, defaulting to `1` when
the name is absent — and `rewind` rebuilds the reader with the same
factor, so the second pass yields the same weights. -/
theorem stripper_xml_channel_scaling (name : String)
    (scaling : String → Option ℚ) (fileWeights : List ℚ) :
    (fileReaderNew name scaling fileWeights).scale = (scaling name).getD 1 ∧
    fileReaderRun (fileReaderNew name scaling fileWeights)
      = fileWeights.map (fun w => w * ((scaling name).getD 1)) ∧
    (fileReaderRewind (fileReaderNew name scaling fileWeights)).scale
      = (fileReaderNew name scaling fileWeights).scale ∧
    fileReaderRun (fileReaderRewind (fileReaderNew name scaling fileWeights))
      = fileReaderRun (fileReaderNew name scaling fileWeights) := by
  refine ⟨rfl, ?_, rfl, rfl⟩
  exact runAux_eq_map ((scaling name).getD 1) fileWeights

end Cres
